import Mathlib

/-!
Verification of the Dwarf Fortress map-export scripts
(`df-screenshot-to-map.py` and `df-map-export.py`).

Images are modelled as height × width grids of 8-bit BGR pixel triples,
indexed `(row, column)`.  OpenCV / NumPy / SciPy library calls are modelled
by their documented behaviour; every piece of repository logic (the
colour-range bounds, the blob-size filter, the extent folds, the resampling
loops, the text-grid parsing loop, the no-input guards) is translated
directly from the Python source.
-/

/-- A pixel position `(row, column)`. -/
abbrev Pos : Type := Nat × Nat

/-- An 8-bit colour image: dimensions plus a pixel function returning a
BGR triple (the colour bounds in the source are the same for all three
channels, so channel order never matters below). -/
structure Img where
  h : Nat
  w : Nat
  pix : Pos → Nat × Nat × Nat

/-- NumPy slice `image[top:bottom, left:right]`: indices clamp to the
image bounds, exactly as NumPy slicing does. -/
def cropImg (img : Img) (left right top bottom : Nat) : Img where
  h := min bottom img.h - top
  w := min right img.w - left
  pix := fun p => img.pix (top + p.1, left + p.2)

/-- The region `get_underground_pixels` works on: the whole image when
`extents` is `None`, else `image[top:bottom, left:right]` for
`extents = (left, right, top, bottom)` (that unpacking order is the
source's). -/
def cropTarget (img : Img) (extents : Option (Nat × Nat × Nat × Nat)) : Img :=
  match extents with
  | none => img
  | some (left, right, top, bottom) => cropImg img left right top bottom

/-- `cv2.inRange(image, (125,125,125), (130,130,130))`: true exactly at
the in-bounds pixels whose three channels all lie in the inclusive band
`125 ≤ c ≤ 130`. -/
def inRangeMask (img : Img) (p : Pos) : Bool :=
  decide (p.1 < img.h) && decide (p.2 < img.w) &&
    (let (b, g, r) := img.pix p
     decide (125 ≤ b ∧ b ≤ 130) && decide (125 ≤ g ∧ g ≤ 130) &&
       decide (125 ≤ r ∧ r ≤ 130))

/-- All positions of an `h × w` grid, row-major. -/
def allPos (h w : Nat) : List Pos :=
  (List.range h).flatMap (fun r => (List.range w).map (fun c => (r, c)))

/-- `near a b`: the two coordinates differ by at most one. -/
def near (a b : Nat) : Bool := a == b || a + 1 == b || b + 1 == a

/-- 8-connectivity adjacency of two distinct grid positions (the default
connectivity of `cv2.connectedComponentsWithStats`). -/
def adj (p q : Pos) : Bool := near p.1 q.1 && near p.2 q.2 && !(p == q)

/-- Fold body of `compStep`: add `q` when the mask is true there, `q` is
adjacent to the set `s` being grown, and `q` was not already collected. -/
def compBody (m : Pos → Bool) (s acc : List Pos) (q : Pos) : List Pos :=
  if m q && s.any (fun b => adj b q) && !(acc.contains q)
  then acc ++ [q] else acc

/-- One expansion step of a connected component: append (without
duplicates) every grid position where the mask is true that is adjacent
to an element of the current list `s`. -/
def compStep (h w : Nat) (m : Pos → Bool) (s : List Pos) : List Pos :=
  (allPos h w).foldl (compBody m s) s

/-- `n` expansion steps starting from the singleton `[p]`. -/
def compIter (h w : Nat) (m : Pos → Bool) : Nat → Pos → List Pos
  | 0, p => [p]
  | n + 1, p => compStep h w m (compIter h w m n p)

/-- The connected component of `p` in mask `m` on an `h × w` grid
(`h * w` expansion steps always reach the fixpoint).  This is the
8-connected component that `cv2.connectedComponentsWithStats` labels `p`
with, and `(comp8 …).length` is that label's pixel count in `stats`. -/
def comp8 (h w : Nat) (m : Pos → Bool) (p : Pos) : List Pos :=
  compIter h w m (h * w) p

/-- The small-blob removal loop of `get_underground_pixels`
(`im_result[im_with_separated_blobs == blob + 1] = 255` for every
component of size `≥ min_size`): a pixel is set to 255 exactly when the
mask is true there and its connected component has at least `minSize`
pixels; every other pixel keeps the `np.zeros` value 0.  In the source
`min_size` is the local variable set to 50. -/
def removeSmallBlobs (h w : Nat) (m : Pos → Bool) (minSize : Nat) (p : Pos) : ℚ :=
  if m p && decide (minSize ≤ (comp8 h w m p).length) then 255 else 0

/-- `get_underground_pixels(image, extents)`: crop to the extents if
given, take the `cv2.inRange` mask for the band (125,125,125)–(130,130,130),
remove components smaller than 50 pixels (values 0/255), divide by 255. -/
def get_underground_pixels (img : Img)
    (extents : Option (Nat × Nat × Nat × Nat)) (p : Pos) : ℚ :=
  let tgt := cropTarget img extents
  removeSmallBlobs tgt.h tgt.w (inRangeMask tgt) 50 p / 255

/-- The boolean version of the array `get_underground_pixels` returns
(its entries are exactly 0 and 1, see the invariant theorem): true where
the returned value is 1. -/
def undergroundMask (img : Img) (extents : Option (Nat × Nat × Nat × Nat))
    (p : Pos) : Bool :=
  decide (get_underground_pixels img extents p = 1)

/-- `if acc is None or v < acc: acc = v` — one clause of the min-folds in
`get_elevation_underground_extents`. -/
def foldMin (acc : Option Int) (v : Int) : Option Int :=
  match acc with
  | none => some v
  | some a => if v < a then some v else some a

/-- `if acc is None or v > acc: acc = v` — one clause of the max-folds in
`get_elevation_underground_extents`. -/
def foldMax (acc : Option Int) (v : Int) : Option Int :=
  match acc with
  | none => some v
  | some a => if v > a then some v else some a

/-- `get_elevation_underground_extents(image)`: run the classifier on the
whole image, then fold the bounding rectangles of its contours into
`(most_left, most_up, most_right, most_down)`, starting from
`(None, None, None, None)`.  The `cv2.findContours` (RETR_LIST) +
`cv2.boundingRect` pair is modelled by its effect on that min/max fold:
folding all contour rectangles gives the same four extremes as folding,
for every true pixel `(r, c)` of the mask, the unit rectangle
`x = c, y = r, w = h = 1` (contributing `x = c`, `y = r`, `x + w = c + 1`,
`y + h = r + 1`).  A mask with no true pixels has no contours, so the loop
body never runs and the null extent is returned. -/
def get_elevation_underground_extents (img : Img) :
    Option Int × Option Int × Option Int × Option Int :=
  let maskTrue := (allPos img.h img.w).filter (fun p => undergroundMask img none p)
  maskTrue.foldl
    (fun acc p =>
      let (mostLeft, mostUp, mostRight, mostDown) := acc
      (foldMin mostLeft (p.2 : Int), foldMin mostUp (p.1 : Int),
       foldMax mostRight ((p.2 : Int) + 1), foldMax mostDown ((p.1 : Int) + 1)))
    (none, none, none, none)

/-- Python `x < y` evaluated with `x : Option Int` and `y : Int`: raises
`TypeError` when `x` is `None`.  In the source this comparison is reached
only when the `is None` guard on the other operand is false. -/
def pyLt (x : Option Int) (y : Int) : Except String Bool :=
  match x with
  | none => Except.error "TypeError: < not supported between NoneType and int"
  | some v => Except.ok (decide (v < y))

/-- Python `x > y` with `x : Option Int`, `y : Int`; `TypeError` when `x`
is `None`. -/
def pyGt (x : Option Int) (y : Int) : Except String Bool :=
  match x with
  | none => Except.error "TypeError: > not supported between NoneType and int"
  | some v => Except.ok (decide (v > y))

/-- One minimising clause of `update_overall_underground_extents`:
`if (acc is None) or (new < acc): acc = new` — Python's short-circuit `or`
reaches the comparison (and its possible `TypeError` on a `None` `new`)
only when `acc` is not `None`. -/
def updLow (new acc : Option Int) : Except String (Option Int) :=
  match acc with
  | none => Except.ok new
  | some a => do if (← pyLt new a) then pure new else pure (some a)

/-- One maximising clause of `update_overall_underground_extents`:
`if (acc is None) or (new > acc): acc = new`. -/
def updHigh (new acc : Option Int) : Except String (Option Int) :=
  match acc with
  | none => Except.ok new
  | some a => do if (← pyGt new a) then pure new else pure (some a)

/-- `update_overall_underground_extents(elevation_extents, current_extents)`:
the four clauses in source order (leftmost, rightmost, topmost,
bottommost), returning `(leftmost, topmost, rightmost, bottommost)`. -/
def update_overall_underground_extents
    (elevation_extents current_extents :
      Option Int × Option Int × Option Int × Option Int) :
    Except String (Option Int × Option Int × Option Int × Option Int) := do
  let (left, top, right, bottom) := elevation_extents
  let (leftmost, topmost, rightmost, bottommost) := current_extents
  let leftmost ← updLow left leftmost
  let rightmost ← updHigh right rightmost
  let topmost ← updLow top topmost
  let bottommost ← updHigh bottom bottommost
  return (leftmost, topmost, rightmost, bottommost)

/-- The extent-aggregation loop of `main` in `df-screenshot-to-map.py`:
starting from `(None, None, None, None)`, fold
`update_overall_underground_extents` over the per-elevation extents in
processing order. -/
def foldExtents
    (es : List (Option Int × Option Int × Option Int × Option Int)) :
    Except String (Option Int × Option Int × Option Int × Option Int) :=
  es.foldlM (fun acc e => update_overall_underground_extents e acc)
    (none, none, none, none)

/-- A non-null per-elevation extent `(left, top, right, bottom)` as the
optional quadruple `main` passes around. -/
def fullExtents (e : Int × Int × Int × Int) :
    Option Int × Option Int × Option Int × Option Int :=
  (some e.1, some e.2.1, some e.2.2.1, some e.2.2.2)

/-- The null extent `(None, None, None, None)`. -/
def nullExtents : Option Int × Option Int × Option Int × Option Int :=
  (none, none, none, none)

/-- Componentwise `(min left, min top, max right, max bottom)` of two
non-null extents — the pure content of one update step once the
accumulator is non-null. -/
def combineExtents (a b : Int × Int × Int × Int) : Int × Int × Int × Int :=
  (min a.1 b.1, min a.2.1 b.2.1, max a.2.2.1 b.2.2.1, max a.2.2.2 b.2.2.2)

/-- `combineExtents` lifted to an optional accumulator, for stating the
order-invariance of the extent fold. -/
def combineOpt (acc : Option (Int × Int × Int × Int))
    (x : Int × Int × Int × Int) : Option (Int × Int × Int × Int) :=
  match acc with
  | none => some x
  | some a => some (combineExtents a x)

/-- `np.linspace(0, 1, n)[i]`: the `i`-th of `n` evenly spaced points of
`[0, 1]`; `np.linspace(0, 1, 1)` is `[0.0]`. -/
def linspace01 (n i : Nat) : ℚ :=
  if n ≤ 1 then 0 else (i : ℚ) / ((n : ℚ) - 1)

/-- `np.round`: round half to even (NumPy's rounding), as a rational. -/
def npRound (q : ℚ) : ℚ :=
  if q - (⌊q⌋ : ℚ) < 1 / 2 then (⌊q⌋ : ℚ)
  else if 1 / 2 < q - (⌊q⌋ : ℚ) then (⌊q⌋ : ℚ) + 1
  else if ⌊q⌋ % 2 = 0 then (⌊q⌋ : ℚ) else (⌊q⌋ : ℚ) + 1

/-- The resampling double loop of `main` in `df-screenshot-to-map.py`:

    row = 1
    for x in x_interp:           # x_interp = linspace(0, 1, nx)
        col = 1
        for y in y_interp:       # y_interp = linspace(0, 1, ny)
            pixel = np.round(interpolant(y, x))
            if (pixel==1):
                _ = ws.cell(column=row, row=col, value=pixel[0, 0])
            col = col + 1
        row = row + 1

returned as the list of writes `((column, row), value)` in loop order;
cells whose rounded sample is not exactly 1 are never written. -/
def resampleWrites (interpolant : ℚ → ℚ → ℚ) (nx ny : Nat) :
    List ((Nat × Nat) × ℚ) :=
  (List.range nx).flatMap (fun i =>
    (List.range ny).filterMap (fun j =>
      let pixel := npRound (interpolant (linspace01 ny j) (linspace01 nx i))
      if pixel = 1 then some ((i + 1, j + 1), pixel) else none))

/-- Contract of `scipy.interpolate.RectBivariateSpline(y_orig, x_orig,
pixels)` with its default smoothing `s = 0`, for data `pixels` indexed
`[row, col]` over the knot grids `y_orig = linspace(0, 1, ny)` and
`x_orig = linspace(0, 1, nx)`:

* `interpolates` — a spline with `s = 0` passes through every data point;
* `const_fit`    — the B-spline basis is a partition of unity, so constant
  data yields the constant interpolant everywhere. -/
structure SplineOn (ny nx : Nat) (pixels : Nat → Nat → ℚ)
    (f : ℚ → ℚ → ℚ) : Prop where
  interpolates : ∀ i j, i < ny → j < nx →
    f (linspace01 ny i) (linspace01 nx j) = pixels i j
  const_fit : ∀ c : ℚ, (∀ i j, i < ny → j < nx → pixels i j = c) →
    ∀ y x : ℚ, f y x = c

/-- Cell contents in `df-map-export.py`: `int(pixel)` for a digit
character, the character itself otherwise. -/
inductive CellVal where
  | num (n : Nat)
  | ch (c : Char)
deriving DecidableEq

/-- Python `str.isspace` characters relevant to `str.strip()` here. -/
def pySpace (c : Char) : Bool :=
  c == ' ' || c == '\t' || c == '\n' || c == '\r'

/-- Python `line.strip()`: drop leading and trailing whitespace. -/
def pyStrip (l : List Char) : List Char :=
  ((l.dropWhile pySpace).reverse.dropWhile pySpace).reverse

/-- `string.digits` membership. -/
def isDigitChar (c : Char) : Bool :=
  c ∈ ['0', '1', '2', '3', '4', '5', '6', '7', '8', '9']

/-- The per-line loop of `main` in `df-map-export.py`:

    for col, pixel in enumerate(line.strip(), start=1):
        if pixel == '0': continue
        if (pixel in string.digits):
            _ = ws.cell(column=col, row=row, value=int(pixel))
        else:
            _ = ws.cell(column=col, row=row, value=pixel)

returned as the writes `((row, col), value)` of one row. -/
def rowWrites (row : Nat) (line : List Char) : List ((Nat × Nat) × CellVal) :=
  (pyStrip line).enum.filterMap (fun ic =>
    let col := ic.1 + 1
    let pixel := ic.2
    if pixel = '0' then none
    else if isDigitChar pixel then
      some ((row, col), CellVal.num (pixel.toNat - '0'.toNat))
    else some ((row, col), CellVal.ch pixel))

/-- The row loop `for row, line in enumerate(minimap, start=1)` over one
elevation file's lines, collecting every cell write `((row, col), value)`. -/
def gridWrites (lines : List (List Char)) : List ((Nat × Nat) × CellVal) :=
  lines.enum.flatMap (fun rl => rowWrites (rl.1 + 1) rl.2)

/-- Processing of one elevation file by `main` in `df-map-export.py`:
`lines = f.readlines()`; `map_size = (len(lines), len(lines[0].strip()))`
(an `IndexError` on an empty file); then the cell-writing double loop.
No row length is ever compared to `map_size`. -/
def mapExportFile (lines : List (List Char)) :
    Except String ((Nat × Nat) × List ((Nat × Nat) × CellVal)) :=
  match lines with
  | [] => Except.error "IndexError: list index out of range"
  | l0 :: _ => Except.ok ((lines.length, (pyStrip l0).length), gridWrites lines)

/-- `glob.glob(os.path.join(basedir, world, '*.png'))` over the names in a
world directory (filenames as character lists): the files matching
`*.png`, i.e. ending in ".png". -/
def globPng (files : List (List Char)) : List (List Char) :=
  files.filter (fun f => List.isSuffixOf ".png".toList f)

/-- `glob.glob(os.path.join(basedir, world, 'elevation-*.txt'))` over the
names in a world directory: the files matching `elevation-*.txt`, i.e.
starting with "elevation-" and ending in ".txt". -/
def globElevationTxt (files : List (List Char)) : List (List Char) :=
  files.filter (fun f =>
    List.isPrefixOf "elevation-".toList f && List.isSuffixOf ".txt".toList f)

/-- The guard opening `main` in `df-screenshot-to-map.py`:

    if not glob.glob(os.path.join(basedir, world, '*.png')):
        raise OSError('{0} contains no PNG screenshots'.format(...))
-/
def screenshotNoInputGuard (globbed : List (List Char)) (path : String) :
    Except String Unit :=
  if globbed.isEmpty then
    Except.error (path ++ " contains no PNG screenshots")
  else Except.ok ()

/-- The guard opening `main` in `df-map-export.py`:

    if not glob.glob(os.path.join(basedir, world, 'elevation-*.txt')):
        raise OSError('{0} contains no elevation-*.txt files'.format(...))
-/
def mapExportNoInputGuard (globbed : List (List Char)) (path : String) :
    Except String Unit :=
  if globbed.isEmpty then
    Except.error (path ++ " contains no elevation-*.txt files")
  else Except.ok ()

/-- One adjacency step inside mask `m`: move to an adjacent position where
the mask is true. -/
def StepRel (m : Pos → Bool) (a b : Pos) : Prop :=
  adj a b = true ∧ m b = true

/-- Reachability from `p` inside mask `m` — the relation whose equivalence
classes on mask-true pixels are the connected components. -/
def ReachIn (m : Pos → Bool) (p q : Pos) : Prop :=
  Relation.ReflTransGen (StepRel m) p q

/-- `Except` success test. -/
def isOkE {α : Type} (x : Except String α) : Bool :=
  match x with
  | Except.ok _ => true
  | Except.error _ => false

/-- The extent quadruple is `(None, None, None, None)`. -/
def isNullB (e : Option Int × Option Int × Option Int × Option Int) : Bool :=
  e == (none, none, none, none)

/-- All four extent components are non-null. -/
def isFullB (e : Option Int × Option Int × Option Int × Option Int) : Bool :=
  e.1.isSome && e.2.1.isSome && e.2.2.1.isSome && e.2.2.2.isSome

/-- The grid of writes the resampling loop produces when every sampled
cell is written with value 1: every `(column, row)` in
`[1, nx] × [1, ny]`, in loop order. -/
def fullGridWrites (nx ny : Nat) : List ((Nat × Nat) × ℚ) :=
  (List.range nx).flatMap (fun i =>
    (List.range ny).map (fun j => ((i + 1, j + 1), (1 : ℚ))))

/-- A 1 × 50 all-grey test image (every pixel is BGR (128, 128, 128)). -/
def greyRow : Img := ⟨1, 50, fun _ => (128, 128, 128)⟩

/-- A 1 × 1 all-black test image. -/
def darkImg : Img := ⟨1, 1, fun _ => (0, 0, 0)⟩

/-! ### Connected-component machinery: supporting lemmas -/

theorem mem_allPos {h w : Nat} {p : Pos} :
    p ∈ allPos h w ↔ p.1 < h ∧ p.2 < w := by
  obtain ⟨r, c⟩ := p
  simp only [allPos, List.mem_flatMap, List.mem_map, List.mem_range]
  constructor
  · rintro ⟨a, ha, b, hb, heq⟩
    injection heq with h1 h2
    subst h1; subst h2
    exact ⟨ha, hb⟩
  · rintro ⟨h1, h2⟩
    exact ⟨r, h1, c, h2, rfl⟩

theorem length_allPos (h w : Nat) : (allPos h w).length = h * w := by
  induction h with
  | zero => simp [allPos]
  | succ n ih =>
    have hstep : (allPos (n + 1) w).length = (allPos n w).length + w := by
      simp [allPos, List.range_succ]
    rw [hstep, ih, Nat.succ_mul]

theorem adj_symm (a b : Pos) : adj a b = adj b a := by
  obtain ⟨a1, a2⟩ := a
  obtain ⟨b1, b2⟩ := b
  rw [Bool.eq_iff_iff]
  simp only [adj, near, Bool.and_eq_true, Bool.or_eq_true, beq_iff_eq,
    Bool.not_eq_true', beq_eq_false_iff_ne, ne_eq, Prod.mk.injEq, not_and]
  omega

theorem mem_foldl_compBody_of_mem {m : Pos → Bool} {s : List Pos}
    {l acc : List Pos} {a : Pos} (ha : a ∈ acc) :
    a ∈ l.foldl (compBody m s) acc := by
  induction l generalizing acc with
  | nil => exact ha
  | cons q t ih =>
    rw [List.foldl_cons]
    refine ih ?_
    unfold compBody
    split
    · exact List.mem_append_left _ ha
    · exact ha

theorem foldl_compBody_eq_append {m : Pos → Bool} {s : List Pos}
    (l : List Pos) (acc : List Pos) :
    ∃ t, l.foldl (compBody m s) acc = acc ++ t := by
  induction l generalizing acc with
  | nil => exact ⟨[], (List.append_nil acc).symm⟩
  | cons q t ih =>
    rw [List.foldl_cons]
    have hbody : ∃ u, compBody m s acc q = acc ++ u := by
      unfold compBody
      split
      · exact ⟨[q], rfl⟩
      · exact ⟨[], (List.append_nil acc).symm⟩
    rcases hbody with ⟨u, hu⟩
    rcases ih (compBody m s acc q) with ⟨v, hv⟩
    exact ⟨u ++ v, by rw [hv, hu, List.append_assoc]⟩

theorem mem_foldl_compBody {m : Pos → Bool} {s : List Pos}
    {l acc : List Pos} {a : Pos}
    (h : a ∈ l.foldl (compBody m s) acc) :
    a ∈ acc ∨ (a ∈ l ∧ m a = true ∧ ∃ b ∈ s, adj b a = true) := by
  induction l generalizing acc with
  | nil => exact Or.inl h
  | cons q t ih =>
    rw [List.foldl_cons] at h
    rcases ih h with hacc | hrest
    · unfold compBody at hacc
      split at hacc
      case isTrue hcond =>
        rcases List.mem_append.mp hacc with h1 | h2
        · exact Or.inl h1
        · have haq : a = q := by simpa using h2
          subst haq
          simp only [Bool.and_eq_true] at hcond
          rcases List.any_eq_true.mp hcond.1.2 with ⟨b, hb, hadj⟩
          exact Or.inr ⟨List.mem_cons_self a t, hcond.1.1, b, hb, hadj⟩
      case isFalse => exact Or.inl hacc
    · rcases hrest with ⟨hat, hma, hb⟩
      exact Or.inr ⟨List.mem_cons_of_mem _ hat, hma, hb⟩

theorem foldl_compBody_complete {m : Pos → Bool} {s : List Pos}
    {l acc : List Pos} {a : Pos} (hal : a ∈ l) (hma : m a = true)
    (hadj : ∃ b ∈ s, adj b a = true) :
    a ∈ l.foldl (compBody m s) acc := by
  induction l generalizing acc with
  | nil => cases hal
  | cons q t ih =>
    rw [List.foldl_cons]
    rcases List.mem_cons.mp hal with rfl | hat
    · refine mem_foldl_compBody_of_mem ?_
      unfold compBody
      split
      case isTrue => exact List.mem_append_right _ (List.mem_singleton_self a)
      case isFalse hcond =>
        have hany : s.any (fun b => adj b a) = true :=
          List.any_eq_true.mpr hadj
        by_cases hc : acc.contains a = true
        · exact List.elem_iff.mp hc
        · exfalso
          apply hcond
          have hcf : acc.contains a = false := by
            cases hh : acc.contains a
            · rfl
            · exact absurd hh hc
          rw [hma, hany, hcf]
          rfl
    · exact ih hat

theorem foldl_compBody_nodup {m : Pos → Bool} {s : List Pos}
    {l acc : List Pos} (h : acc.Nodup) :
    (l.foldl (compBody m s) acc).Nodup := by
  induction l generalizing acc with
  | nil => exact h
  | cons q t ih =>
    rw [List.foldl_cons]
    refine ih ?_
    unfold compBody
    split
    case isTrue hcond =>
      simp only [Bool.and_eq_true, Bool.not_eq_true'] at hcond
      have hq : q ∉ acc := by
        intro hmem
        have h2 : acc.contains q = true := List.elem_iff.mpr hmem
        rw [hcond.2] at h2
        exact Bool.false_ne_true h2
      simp [List.nodup_append, h, hq]
    case isFalse => exact h

theorem mem_compIter_self (hg wd : Nat) (m : Pos → Bool) (n : Nat) (p : Pos) :
    p ∈ compIter hg wd m n p := by
  induction n with
  | zero => exact List.mem_singleton_self p
  | succ n ih => exact mem_foldl_compBody_of_mem ih

theorem compIter_nodup (hg wd : Nat) (m : Pos → Bool) (n : Nat) (p : Pos) :
    (compIter hg wd m n p).Nodup := by
  induction n with
  | zero => simp [compIter]
  | succ n ih => exact foldl_compBody_nodup ih

theorem compIter_sound {hg wd : Nat} {m : Pos → Bool} {n : Nat} {p q : Pos}
    (hq : q ∈ compIter hg wd m n p) : ReachIn m p q := by
  induction n generalizing q with
  | zero =>
    rw [List.mem_singleton.mp hq]
    exact Relation.ReflTransGen.refl
  | succ n ih =>
    rcases mem_foldl_compBody hq with hprev | ⟨_, hmq, b, hbs, hadj⟩
    · exact ih hprev
    · exact (ih hbs).tail ⟨hadj, hmq⟩

theorem compIter_elements {hg wd : Nat} {m : Pos → Bool} {n : Nat} {p : Pos}
    (hp : p ∈ allPos hg wd) :
    ∀ q ∈ compIter hg wd m n p, q ∈ allPos hg wd := by
  induction n with
  | zero =>
    intro q hq
    rw [List.mem_singleton.mp hq]
    exact hp
  | succ n ih =>
    intro q hq
    rcases mem_foldl_compBody hq with hprev | ⟨hap, _, _⟩
    · exact ih q hprev
    · exact hap

theorem compIter_length_le {hg wd : Nat} {m : Pos → Bool} {n : Nat} {p : Pos}
    (hp : p ∈ allPos hg wd) :
    (compIter hg wd m n p).length ≤ hg * wd := by
  have hsub : compIter hg wd m n p ⊆ allPos hg wd :=
    fun q hq => compIter_elements hp q hq
  have hle := (List.subperm_of_subset (compIter_nodup hg wd m n p) hsub).length_le
  rwa [length_allPos] at hle

theorem compIter_growth {hg wd : Nat} {m : Pos → Bool} {p : Pos} (n : Nat)
    (hne : ∀ k < n, compIter hg wd m (k + 1) p ≠ compIter hg wd m k p) :
    n + 1 ≤ (compIter hg wd m n p).length := by
  induction n with
  | zero => simp [compIter]
  | succ n ih =>
    have h1 : n + 1 ≤ (compIter hg wd m n p).length :=
      ih (fun k hk => hne k (Nat.lt_succ_of_lt hk))
    have heq : ∃ t, compIter hg wd m (n + 1) p = compIter hg wd m n p ++ t :=
      foldl_compBody_eq_append _ _
    rcases heq with ⟨t, ht⟩
    cases t with
    | nil => exact absurd (by rw [ht, List.append_nil]) (hne n (Nat.lt_succ_self n))
    | cons x xs =>
      rw [ht, List.length_append]
      simp only [List.length_cons]
      omega

theorem compIter_stab {hg wd : Nat} {m : Pos → Bool} {p : Pos} {n k : Nat}
    (hfix : compIter hg wd m (n + 1) p = compIter hg wd m n p) (hk : n ≤ k) :
    compIter hg wd m k p = compIter hg wd m n p := by
  induction k with
  | zero =>
    cases Nat.le_zero.mp hk
    rfl
  | succ k ih =>
    rcases Nat.lt_or_ge n (k + 1) with hlt | hge
    · have hk2 := ih (Nat.lt_succ_iff.mp hlt)
      calc compIter hg wd m (k + 1) p
          = compStep hg wd m (compIter hg wd m k p) := rfl
        _ = compStep hg wd m (compIter hg wd m n p) := by rw [hk2]
        _ = compIter hg wd m (n + 1) p := rfl
        _ = compIter hg wd m n p := hfix
    · rw [Nat.le_antisymm hk hge]

theorem comp8_closed {hg wd : Nat} {m : Pos → Bool} {p : Pos}
    (hp : p ∈ allPos hg wd) :
    compStep hg wd m (comp8 hg wd m p) = comp8 hg wd m p := by
  by_cases hfix : ∃ k < hg * wd, compIter hg wd m (k + 1) p = compIter hg wd m k p
  · rcases hfix with ⟨k, hk, hf⟩
    have h1 : comp8 hg wd m p = compIter hg wd m k p :=
      compIter_stab hf (le_of_lt hk)
    calc compStep hg wd m (comp8 hg wd m p)
        = compStep hg wd m (compIter hg wd m k p) := by rw [h1]
      _ = compIter hg wd m (k + 1) p := rfl
      _ = compIter hg wd m k p := hf
      _ = comp8 hg wd m p := h1.symm
  · push_neg at hfix
    have hgrow := compIter_growth (hg * wd) hfix
    have hle := compIter_length_le (n := hg * wd) (m := m) hp
    omega

theorem comp8_complete {hg wd : Nat} {m : Pos → Bool} {p q : Pos}
    (hp : p ∈ allPos hg wd) (hm : ∀ x, m x = true → x ∈ allPos hg wd)
    (hr : ReachIn m p q) :
    q ∈ comp8 hg wd m p := by
  induction hr with
  | refl => exact mem_compIter_self hg wd m (hg * wd) p
  | @tail b c hab hbc ih =>
    have hc : c ∈ compStep hg wd m (comp8 hg wd m p) :=
      foldl_compBody_complete (hm c hbc.2) hbc.2 ⟨b, ih, hbc.1⟩
    rwa [comp8_closed hp] at hc

theorem mem_comp8 {hg wd : Nat} {m : Pos → Bool} {p q : Pos}
    (hp : p ∈ allPos hg wd) (hm : ∀ x, m x = true → x ∈ allPos hg wd) :
    q ∈ comp8 hg wd m p ↔ ReachIn m p q :=
  ⟨compIter_sound, comp8_complete hp hm⟩

theorem reachIn_mono {m m2 : Pos → Bool} (hmm : ∀ x, m2 x = true → m x = true)
    {p q : Pos} (h : ReachIn m2 p q) : ReachIn m p q := by
  induction h with
  | refl => exact Relation.ReflTransGen.refl
  | tail hab hbc ih => exact ih.tail ⟨hbc.1, hmm _ hbc.2⟩

theorem reachIn_target {m : Pos → Bool} {p q : Pos}
    (h : ReachIn m p q) (hp : m p = true) : m q = true := by
  induction h with
  | refl => exact hp
  | tail hab hbc ih => exact hbc.2

theorem reachIn_symm {m : Pos → Bool} {p q : Pos}
    (hp : m p = true) (h : ReachIn m p q) : ReachIn m q p := by
  induction h with
  | refl => exact Relation.ReflTransGen.refl
  | @tail b c hab hbc ih =>
    have hmb : m b = true := reachIn_target hab hp
    exact Relation.ReflTransGen.head ⟨by rw [adj_symm]; exact hbc.1, hmb⟩ ih

theorem comp8_length_congr {hg wd : Nat} {m : Pos → Bool} {p c : Pos}
    (hm : ∀ x, m x = true → x ∈ allPos hg wd)
    (hmp : m p = true) (hr : ReachIn m p c) :
    (comp8 hg wd m c).length = (comp8 hg wd m p).length := by
  have hp : p ∈ allPos hg wd := hm p hmp
  have hmc : m c = true := reachIn_target hr hmp
  have hcp : c ∈ allPos hg wd := hm c hmc
  have hext : ∀ x, x ∈ comp8 hg wd m c ↔ x ∈ comp8 hg wd m p := by
    intro x
    rw [mem_comp8 hcp hm, mem_comp8 hp hm]
    constructor
    · intro hcx
      exact Relation.ReflTransGen.trans hr hcx
    · intro hpx
      exact Relation.ReflTransGen.trans (reachIn_symm hmp hr) hpx
  exact ((List.perm_ext_iff_of_nodup
    (compIter_nodup hg wd m (hg * wd) c)
    (compIter_nodup hg wd m (hg * wd) p)).mpr hext).length_eq

/-! ### Classifier value lemmas -/

theorem get_underground_pixels_one_iff
    (img : Img) (extents : Option (Nat × Nat × Nat × Nat)) (p : Pos) :
    get_underground_pixels img extents p = 1 ↔
      (inRangeMask (cropTarget img extents) p = true ∧
       50 ≤ (comp8 (cropTarget img extents).h (cropTarget img extents).w
              (inRangeMask (cropTarget img extents)) p).length) := by
  unfold get_underground_pixels removeSmallBlobs
  simp only []
  split
  case isTrue hcond =>
    simp only [Bool.and_eq_true, decide_eq_true_eq] at hcond
    constructor
    · intro _
      exact hcond
    · intro _
      norm_num
  case isFalse hcond =>
    constructor
    · intro h0
      norm_num at h0
    · intro hc
      exact absurd (by simp [hc.1, hc.2]) hcond

/-- C10: for every input image and every extents argument, every entry of
the array returned by `get_underground_pixels` is exactly 0 or 1 — the
classifier never returns an intermediate or out-of-range value. -/
theorem get_underground_pixels_mem
    (img : Img) (extents : Option (Nat × Nat × Nat × Nat)) (p : Pos) :
    get_underground_pixels img extents p = 0 ∨
      get_underground_pixels img extents p = 1 := by
  unfold get_underground_pixels removeSmallBlobs
  simp only []
  split
  · right
    norm_num
  · left
    norm_num

theorem undergroundMask_iff
    (img : Img) (extents : Option (Nat × Nat × Nat × Nat)) (p : Pos) :
    undergroundMask img extents p = true ↔
      (inRangeMask (cropTarget img extents) p = true ∧
       50 ≤ (comp8 (cropTarget img extents).h (cropTarget img extents).w
              (inRangeMask (cropTarget img extents)) p).length) := by
  rw [undergroundMask, decide_eq_true_eq]
  exact get_underground_pixels_one_iff img extents p

theorem inRangeMask_in_allPos (img : Img) :
    ∀ x, inRangeMask img x = true → x ∈ allPos img.h img.w := by
  intro x hx
  rw [inRangeMask, Bool.and_eq_true, Bool.and_eq_true] at hx
  exact mem_allPos.mpr ⟨of_decide_eq_true hx.1.1, of_decide_eq_true hx.1.2⟩

/-- Walking a component of the raw mask never leaves the kept mask, when
the kept mask keeps exactly the raw pixels whose raw component is large
enough and the start pixel is kept. -/
theorem reachIn_kept {hg wd : Nat} {raw kept : Pos → Bool} {t : Nat}
    (hm_raw : ∀ x, raw x = true → x ∈ allPos hg wd)
    (hkept : ∀ x, kept x = true ↔
      (raw x = true ∧ t ≤ (comp8 hg wd raw x).length))
    {p q : Pos} (hp : kept p = true) (hr : ReachIn raw p q) :
    ReachIn kept p q := by
  induction hr with
  | refl => exact Relation.ReflTransGen.refl
  | @tail b c hab hbc ih =>
    have hrawp : raw p = true := ((hkept p).mp hp).1
    have hlen : t ≤ (comp8 hg wd raw p).length := ((hkept p).mp hp).2
    have hrpc : ReachIn raw p c := hab.tail hbc
    have hlenc : (comp8 hg wd raw c).length = (comp8 hg wd raw p).length :=
      comp8_length_congr hm_raw hrawp hrpc
    have hkc : kept c = true := (hkept c).mpr ⟨hbc.2, by omega⟩
    exact ih.tail ⟨hbc.1, hkc⟩

/-- The component of a kept pixel in the kept mask has the same members as
its component in the raw mask. -/
theorem comp8_kept_ext {hg wd : Nat} {raw kept : Pos → Bool} {t : Nat}
    (hm_raw : ∀ x, raw x = true → x ∈ allPos hg wd)
    (hkept : ∀ x, kept x = true ↔
      (raw x = true ∧ t ≤ (comp8 hg wd raw x).length))
    {p : Pos} (hp : kept p = true) :
    ∀ x, x ∈ comp8 hg wd kept p ↔ x ∈ comp8 hg wd raw p := by
  have hkl : ∀ x, kept x = true → raw x = true :=
    fun x hx => ((hkept x).mp hx).1
  have hm_kept : ∀ x, kept x = true → x ∈ allPos hg wd :=
    fun x hx => hm_raw x (hkl x hx)
  have hpall : p ∈ allPos hg wd := hm_kept p hp
  intro x
  rw [mem_comp8 hpall hm_kept, mem_comp8 hpall hm_raw]
  exact ⟨reachIn_mono hkl, reachIn_kept hm_raw hkept hp⟩

/-- C1: the mask returned by `get_underground_pixels` is 1 at a pixel iff
the pixel's colour lies in the inclusive band (125,125,125)–(130,130,130)
and its 8-connected component in the raw in-range mask has at least 50
pixels; consequently the component of any true pixel in the returned mask
itself has at least 50 pixels, and an image with no in-range pixels gives
the all-zero mask (no error). -/
theorem underground_pixels_classification
    (img : Img) (extents : Option (Nat × Nat × Nat × Nat)) :
    (∀ p, get_underground_pixels img extents p = 1 ↔
       (inRangeMask (cropTarget img extents) p = true ∧
        50 ≤ (comp8 (cropTarget img extents).h (cropTarget img extents).w
               (inRangeMask (cropTarget img extents)) p).length))
    ∧ (∀ p, get_underground_pixels img extents p = 1 →
        50 ≤ (comp8 (cropTarget img extents).h (cropTarget img extents).w
               (undergroundMask img extents) p).length)
    ∧ ((∀ p, inRangeMask (cropTarget img extents) p = false) →
        ∀ p, get_underground_pixels img extents p = 0) := by
  refine ⟨get_underground_pixels_one_iff img extents, ?_, ?_⟩
  · intro p hp1
    have hcore := (get_underground_pixels_one_iff img extents p).mp hp1
    have hump : undergroundMask img extents p = true :=
      (undergroundMask_iff img extents p).mpr hcore
    have hext := comp8_kept_ext (inRangeMask_in_allPos (cropTarget img extents))
      (undergroundMask_iff img extents) hump
    have hperm := (List.perm_ext_iff_of_nodup
      (compIter_nodup _ _ _ _ _) (compIter_nodup _ _ _ _ _)).mpr hext
    have hlen : (comp8 (cropTarget img extents).h (cropTarget img extents).w
          (undergroundMask img extents) p).length =
        (comp8 (cropTarget img extents).h (cropTarget img extents).w
          (inRangeMask (cropTarget img extents)) p).length := hperm.length_eq
    rw [hlen]
    exact hcore.2
  · intro hraw p
    unfold get_underground_pixels removeSmallBlobs
    simp only [hraw p]
    norm_num

set_option maxRecDepth 100000 in
/-- Witness for C1: on a 1 × 50 all-grey image the classifier returns 1 at
pixel (0, 0), and the connected component of (0, 0) in the returned mask
has at least 50 pixels. -/
theorem underground_pixels_classification_witness :
    get_underground_pixels greyRow none (0, 0) = 1 ∧
    50 ≤ (comp8 1 50 (undergroundMask greyRow none) (0, 0)).length := by
  have h := underground_pixels_classification greyRow none
  have h1 : get_underground_pixels greyRow none (0, 0) = 1 :=
    (h.1 (0, 0)).mpr (by decide)
  exact ⟨h1, h.2.1 (0, 0) h1⟩

/-- C8: running the blob-suppression step with minimum size 0 is the
identity on the raw colour-range mask: the output is 255 (true) exactly at
the pixels where the raw in-range mask is true, and 0 elsewhere. -/
theorem blob_suppression_zero_identity (img : Img) (p : Pos) :
    (removeSmallBlobs img.h img.w (inRangeMask img) 0 p = 255 ↔
      inRangeMask img p = true)
    ∧ (removeSmallBlobs img.h img.w (inRangeMask img) 0 p = 0 ↔
      inRangeMask img p = false) := by
  unfold removeSmallBlobs
  cases hm : inRangeMask img p
  · simp only [hm, Bool.false_and, Bool.false_eq_true, if_false]
    norm_num
  · simp only [hm, Bool.true_and, Nat.zero_le, decide_eq_true_eq, decide_True,
      Bool.and_true]
    norm_num

/-- C6 counterexample: on the 3 × 3 text grid "1 0" / "0 1" / "0 0" the
code does not leave every cell other than (0,0) and (1,1) empty — the '1'
of the second row lands at 1-based cell (2,3), cell (2,2) (0-based (1,1))
is not set to 1, and the space characters are written as literal
space-valued cells rather than skipped. -/
theorem legacy_grid_scenario_counterexample :
    ((2, 3), CellVal.num 1) ∈ gridWrites ["1 0".toList, "0 1".toList, "0 0".toList]
    ∧ ((2, 2), CellVal.num 1) ∉ gridWrites ["1 0".toList, "0 1".toList, "0 0".toList]
    ∧ ((1, 2), CellVal.ch ' ') ∈ gridWrites ["1 0".toList, "0 1".toList, "0 0".toList] := by
  decide

/-- C6 amended: on the 3 × 3 text grid "1 0" / "0 1" / "0 0" the writes
are exactly: numeric 1 at 1-based cells (1,1) and (2,3) (the positions of
the '1' characters), and a literal space character at (1,2), (2,2) and
(3,2); '0' characters produce no cell, but space characters do. -/
theorem legacy_grid_scenario_amended :
    gridWrites ["1 0".toList, "0 1".toList, "0 0".toList] =
      [((1, 1), CellVal.num 1), ((1, 2), CellVal.ch ' '),
       ((2, 2), CellVal.ch ' '), ((2, 3), CellVal.num 1),
       ((3, 2), CellVal.ch ' ')] := by
  decide

/-- C9 counterexample: a two-line legacy grid whose stripped rows have
lengths 2 and 1 is processed without any error by the text-grid `main`
model — no row-length check exists. -/
theorem mismatched_rows_counterexample :
    isOkE (mapExportFile ["10".toList, "1".toList]) = true
    ∧ (pyStrip "1".toList).length ≠ (pyStrip "10".toList).length := by
  decide

/-- C9 amended: for every non-empty list of lines — mismatched row lengths
included — the text-grid `main` model succeeds, taking the grid geometry
from the first line only and writing every line at its own length. -/
theorem mismatched_rows_amended (l0 : List Char) (rest : List (List Char)) :
    mapExportFile (l0 :: rest) =
      Except.ok (((l0 :: rest).length, (pyStrip l0).length),
        gridWrites (l0 :: rest)) := rfl

/-- C7: for both variants, `main` raises an error whose message carries the
offending path iff the glob over the world directory matches no input
files; when at least one matching file exists the guard raises nothing. -/
theorem no_input_guard_iff (files : List (List Char)) (path : String) :
    ((∃ msg, screenshotNoInputGuard (globPng files) path = Except.error msg ∧
        ∃ rest, msg = path ++ rest) ↔ globPng files = [])
    ∧ ((∃ msg, mapExportNoInputGuard (globElevationTxt files) path
          = Except.error msg ∧
        ∃ rest, msg = path ++ rest) ↔ globElevationTxt files = []) := by
  constructor
  · constructor
    · rintro ⟨msg, hmsg, -⟩
      unfold screenshotNoInputGuard at hmsg
      split at hmsg
      case isTrue hempty => exact List.isEmpty_iff.mp hempty
      case isFalse => cases hmsg
    · intro hnil
      refine ⟨path ++ " contains no PNG screenshots", ?_,
        " contains no PNG screenshots", rfl⟩
      unfold screenshotNoInputGuard
      rw [hnil]
      rfl
  · constructor
    · rintro ⟨msg, hmsg, -⟩
      unfold mapExportNoInputGuard at hmsg
      split at hmsg
      case isTrue hempty => exact List.isEmpty_iff.mp hempty
      case isFalse => cases hmsg
    · intro hnil
      refine ⟨path ++ " contains no elevation-*.txt files", ?_,
        " contains no elevation-*.txt files", rfl⟩
      unfold mapExportNoInputGuard
      rw [hnil]
      rfl

/-- Witness for C7: a directory holding only "notes.txt" triggers the
screenshot-variant error (whose message starts with the path), and a
directory holding "shot.png" does not make that error possible. -/
theorem no_input_guard_iff_witness :
    (∃ msg, screenshotNoInputGuard (globPng ["notes.txt".toList]) "worlds/alpha"
        = Except.error msg ∧ ∃ rest, msg = "worlds/alpha" ++ rest)
    ∧ ¬ (∃ msg, screenshotNoInputGuard (globPng ["shot.png".toList]) "worlds/alpha"
        = Except.error msg ∧ ∃ rest, msg = "worlds/alpha" ++ rest) := by
  constructor
  · exact ((no_input_guard_iff ["notes.txt".toList] "worlds/alpha").1).mpr (by decide)
  · intro hc
    have := ((no_input_guard_iff ["shot.png".toList] "worlds/alpha").1).mp hc
    exact absurd this (by decide)

/-! ### Extent-fold lemmas -/

theorem updLow_some_some (v a : Int) :
    updLow (some v) (some a) = Except.ok (some (min a v)) := by
  unfold updLow pyLt
  rcases lt_or_ge v a with hlt | hge
  · simp [hlt, min_eq_right hlt.le]
    rfl
  · simp [not_lt.mpr hge, min_eq_left hge]
    rfl

theorem updHigh_some_some (v a : Int) :
    updHigh (some v) (some a) = Except.ok (some (max a v)) := by
  unfold updHigh pyGt
  rcases lt_or_ge a v with hlt | hge
  · simp [hlt, max_eq_right hlt.le]
    rfl
  · simp [not_lt.mpr hge, max_eq_left hge]
    rfl

theorem update_null_acc (e : Option Int × Option Int × Option Int × Option Int) :
    update_overall_underground_extents e (none, none, none, none)
      = Except.ok e := by
  obtain ⟨l, t, r, b⟩ := e
  rfl

theorem update_null_elev_full (a : Int × Int × Int × Int) :
    update_overall_underground_extents nullExtents (fullExtents a)
      = Except.error "TypeError: < not supported between NoneType and int" := by
  obtain ⟨a1, a2, a3, a4⟩ := a
  rfl

theorem update_full_full (q a : Int × Int × Int × Int) :
    update_overall_underground_extents (fullExtents q) (fullExtents a)
      = Except.ok (fullExtents (combineExtents a q)) := by
  obtain ⟨q1, q2, q3, q4⟩ := q
  obtain ⟨a1, a2, a3, a4⟩ := a
  show (do
    let leftmost ← updLow (some q1) (some a1)
    let rightmost ← updHigh (some q3) (some a3)
    let topmost ← updLow (some q2) (some a2)
    let bottommost ← updHigh (some q4) (some a4)
    return (leftmost, topmost, rightmost, bottommost)) = _
  rw [updLow_some_some, updHigh_some_some, updLow_some_some, updHigh_some_some]
  rfl

theorem isNullB_eq (e : Option Int × Option Int × Option Int × Option Int) :
    isNullB e = true ↔ e = nullExtents := by
  rw [isNullB, beq_iff_eq]
  exact Iff.rfl

theorem isFullB_exists {e : Option Int × Option Int × Option Int × Option Int}
    (he : isFullB e = true) : ∃ q, e = fullExtents q := by
  obtain ⟨a, b, c, d⟩ := e
  simp only [isFullB, Bool.and_eq_true, Option.isSome_iff_exists] at he
  obtain ⟨⟨⟨⟨a1, ha⟩, b1, hb⟩, c1, hc⟩, d1, hd⟩ := he
  exact ⟨(a1, b1, c1, d1), by rw [ha, hb, hc, hd]; rfl⟩

theorem isFullB_full (q : Int × Int × Int × Int) :
    isFullB (fullExtents q) = true := rfl

theorem isNullB_full (q : Int × Int × Int × Int) :
    isNullB (fullExtents q) = false := rfl

theorem isFullB_null : isFullB nullExtents = false := rfl

theorem isNullB_null : isNullB nullExtents = true := rfl

theorem foldlM_update_full
    {es : List (Option Int × Option Int × Option Int × Option Int)}
    (hes : ∀ e ∈ es, isNullB e = true ∨ isFullB e = true)
    (a : Int × Int × Int × Int) :
    isOkE (es.foldlM (fun acc e => update_overall_underground_extents e acc)
        (fullExtents a)) = true
      ↔ es.all isFullB = true := by
  induction es generalizing a with
  | nil => rfl
  | cons e rest ih =>
    rw [List.foldlM_cons]
    rcases hes e (List.mem_cons_self e rest) with hnull | hfull
    · obtain rfl : e = nullExtents := (isNullB_eq e).mp hnull
      rw [update_null_elev_full]
      constructor
      · intro hok
        exact absurd hok (Bool.false_ne_true)
      · intro hall
        rw [List.all_cons, isFullB_null, Bool.false_and] at hall
        exact absurd hall (Bool.false_ne_true)
    · obtain ⟨q, rfl⟩ := isFullB_exists hfull
      rw [update_full_full]
      have hbind : isOkE ((Except.ok (fullExtents (combineExtents a q)) :
            Except String (Option Int × Option Int × Option Int × Option Int)) >>=
          fun init => rest.foldlM
            (fun acc e => update_overall_underground_extents e acc) init) =
          isOkE (rest.foldlM
            (fun acc e => update_overall_underground_extents e acc)
            (fullExtents (combineExtents a q))) := rfl
      rw [hbind, List.all_cons, isFullB_full, Bool.true_and]
      exact ih (fun x hx => hes x (List.mem_cons_of_mem _ hx)) (combineExtents a q)

theorem foldExtents_ok_iff
    {es : List (Option Int × Option Int × Option Int × Option Int)}
    (hes : ∀ e ∈ es, isNullB e = true ∨ isFullB e = true) :
    isOkE (foldExtents es) = true ↔
      ∃ n, (es.take n).all isNullB = true ∧ (es.drop n).all isFullB = true := by
  induction es with
  | nil =>
    constructor
    · intro _
      exact ⟨0, rfl, rfl⟩
    · intro _
      rfl
  | cons e rest ih =>
    rcases hes e (List.mem_cons_self e rest) with hnull | hfull
    · obtain rfl : e = nullExtents := (isNullB_eq e).mp hnull
      have hfold : isOkE (foldExtents (nullExtents :: rest))
          = isOkE (foldExtents rest) := by
        unfold foldExtents
        simp only [List.foldlM_cons, update_null_acc]
        rfl
      rw [hfold]
      rw [ih (fun x hx => hes x (List.mem_cons_of_mem _ hx))]
      constructor
      · rintro ⟨n, h1, h2⟩
        exact ⟨n + 1, by
          rw [List.take_succ_cons, List.all_cons, isNullB_null, Bool.true_and]
          exact h1, by rw [List.drop_succ_cons]; exact h2⟩
      · rintro ⟨n, h1, h2⟩
        cases n with
        | zero =>
          rw [List.drop_zero, List.all_cons, isFullB_null, Bool.false_and] at h2
          exact absurd h2 (by simp)
        | succ m =>
          rw [List.take_succ_cons, List.all_cons, Bool.and_eq_true] at h1
          rw [List.drop_succ_cons] at h2
          exact ⟨m, h1.2, h2⟩
    · obtain ⟨q, rfl⟩ := isFullB_exists hfull
      have hfold : isOkE (foldExtents (fullExtents q :: rest)) =
          isOkE (rest.foldlM
            (fun acc e => update_overall_underground_extents e acc)
            (fullExtents q)) := by
        unfold foldExtents
        simp only [List.foldlM_cons, update_null_acc]
        rfl
      rw [hfold,
        foldlM_update_full (fun x hx => hes x (List.mem_cons_of_mem _ hx)) q]
      constructor
      · intro hall
        exact ⟨0, rfl, by
          rw [List.drop_zero, List.all_cons, isFullB_full, Bool.true_and]
          exact hall⟩
      · rintro ⟨n, h1, h2⟩
        cases n with
        | zero =>
          rw [List.drop_zero, List.all_cons, isFullB_full, Bool.true_and] at h2
          exact h2
        | succ m =>
          rw [List.take_succ_cons, List.all_cons, isNullB_full,
            Bool.false_and] at h1
          exact absurd h1 (by simp)

/-- C2 counterexample: folding a null per-elevation extent into a non-null
accumulator — a real extent followed by a null one, one of the orders the
claim calls "interleaved" — raises `TypeError` instead of completing. -/
theorem null_after_full_extent_raises :
    foldExtents [fullExtents (0, 0, 5, 5), nullExtents]
      = Except.error "TypeError: < not supported between NoneType and int" := rfl

/-- C2 amended: an elevation whose mask has zero true pixels gets the null
extent `(None, None, None, None)` (no exception), and `main`'s fold of
per-elevation extents completes without error iff no null extent follows a
non-null one — i.e. exactly when the extent list splits into null extents
followed by non-null extents; a null extent reaching a non-null
accumulator raises `TypeError`. -/
theorem null_extent_handling_amended :
    (∀ img : Img, (∀ p, undergroundMask img none p = false) →
       get_elevation_underground_extents img = nullExtents)
    ∧ (∀ es : List (Option Int × Option Int × Option Int × Option Int),
        (∀ e ∈ es, isNullB e = true ∨ isFullB e = true) →
        (isOkE (foldExtents es) = true ↔
          ∃ n, (es.take n).all isNullB = true ∧
            (es.drop n).all isFullB = true)) := by
  constructor
  · intro img hmask
    simp only [get_elevation_underground_extents]
    have hfilter : (allPos img.h img.w).filter
        (fun p => undergroundMask img none p) = [] := by
      rw [List.filter_eq_nil_iff]
      intro a _
      rw [hmask a]
      exact Bool.false_ne_true
    rw [hfilter]
    rfl
  · intro es hes
    exact foldExtents_ok_iff hes

/-- Witness for C2 (amended): the all-black image yields the null extent,
and a null extent followed by a real one folds without error. -/
theorem null_extent_handling_amended_witness :
    get_elevation_underground_extents darkImg = nullExtents ∧
    isOkE (foldExtents [nullExtents, fullExtents (1, 2, 3, 4)]) = true := by
  have h := null_extent_handling_amended
  constructor
  · apply h.1 darkImg
    intro p
    cases hmask : undergroundMask darkImg none p
    · rfl
    · exfalso
      have hc := (undergroundMask_iff darkImg none p).mp hmask
      have hr : inRangeMask darkImg p = true := hc.1
      rw [inRangeMask] at hr
      simp [darkImg] at hr
  · exact (h.2 _ (by decide)).mpr ⟨1, by decide, by decide⟩

theorem combineExtents_comm (a b : Int × Int × Int × Int) :
    combineExtents a b = combineExtents b a := by
  obtain ⟨a1, a2, a3, a4⟩ := a
  obtain ⟨b1, b2, b3, b4⟩ := b
  simp [combineExtents, min_comm, max_comm]

theorem combineExtents_assoc (a b c : Int × Int × Int × Int) :
    combineExtents (combineExtents a b) c
      = combineExtents a (combineExtents b c) := by
  obtain ⟨a1, a2, a3, a4⟩ := a
  obtain ⟨b1, b2, b3, b4⟩ := b
  obtain ⟨c1, c2, c3, c4⟩ := c
  simp [combineExtents, min_assoc, max_assoc]

theorem combineExtents_right_comm (c a b : Int × Int × Int × Int) :
    combineExtents (combineExtents c a) b
      = combineExtents (combineExtents c b) a := by
  obtain ⟨a1, a2, a3, a4⟩ := a
  obtain ⟨b1, b2, b3, b4⟩ := b
  obtain ⟨c1, c2, c3, c4⟩ := c
  simp [combineExtents, min_right_comm, sup_right_comm]

theorem foldl_comm_perm {α β : Type} {f : β → α → β}
    (hf : ∀ b a1 a2, f (f b a1) a2 = f (f b a2) a1) :
    ∀ {l1 l2 : List α}, l1.Perm l2 → ∀ b, l1.foldl f b = l2.foldl f b := by
  intro l1 l2 hp
  induction hp with
  | nil => intro b; rfl
  | cons x _ ih => intro b; rw [List.foldl_cons, List.foldl_cons, ih]
  | swap x y l =>
    intro b
    rw [List.foldl_cons, List.foldl_cons, List.foldl_cons, List.foldl_cons, hf]
  | trans _ _ ih1 ih2 => intro b; rw [ih1, ih2]

theorem combineOpt_right_comm (b : Option (Int × Int × Int × Int))
    (a1 a2 : Int × Int × Int × Int) :
    combineOpt (combineOpt b a1) a2 = combineOpt (combineOpt b a2) a1 := by
  cases b with
  | none => simp [combineOpt, combineExtents_comm a1 a2]
  | some c => simp [combineOpt, combineExtents_right_comm c a1 a2]

theorem foldl_combineOpt_some (t : List (Int × Int × Int × Int))
    (a : Int × Int × Int × Int) :
    t.foldl combineOpt (some a) = some (t.foldl combineExtents a) := by
  induction t generalizing a with
  | nil => rfl
  | cons x t ih =>
    rw [List.foldl_cons, List.foldl_cons]
    exact ih (combineExtents a x)

theorem foldl_combine_perm {e e2 : Int × Int × Int × Int}
    {t t2 : List (Int × Int × Int × Int)}
    (hp : (e :: t).Perm (e2 :: t2)) :
    t.foldl combineExtents e = t2.foldl combineExtents e2 := by
  have hopt := foldl_comm_perm combineOpt_right_comm hp none
  rw [List.foldl_cons, List.foldl_cons] at hopt
  have h1 : combineOpt none e = some e := rfl
  have h2 : combineOpt none e2 = some e2 := rfl
  rw [h1, h2, foldl_combineOpt_some, foldl_combineOpt_some] at hopt
  exact Option.some.inj hopt

theorem foldlM_update_map_full (l : List (Int × Int × Int × Int))
    (a : Int × Int × Int × Int) :
    (l.map fullExtents).foldlM
        (fun acc e => update_overall_underground_extents e acc)
        (fullExtents a)
      = Except.ok (fullExtents (l.foldl combineExtents a)) := by
  induction l generalizing a with
  | nil => rfl
  | cons x t ih =>
    rw [List.map_cons, List.foldlM_cons, update_full_full]
    have hbind : ((Except.ok (fullExtents (combineExtents a x)) :
          Except String (Option Int × Option Int × Option Int × Option Int)) >>=
        fun init => (t.map fullExtents).foldlM
          (fun acc e => update_overall_underground_extents e acc) init) =
        (t.map fullExtents).foldlM
          (fun acc e => update_overall_underground_extents e acc)
          (fullExtents (combineExtents a x)) := rfl
    rw [hbind, ih, List.foldl_cons]

theorem foldExtents_map_full (e : Int × Int × Int × Int)
    (t : List (Int × Int × Int × Int)) :
    foldExtents ((e :: t).map fullExtents)
      = Except.ok (fullExtents (t.foldl combineExtents e)) := by
  unfold foldExtents
  rw [List.map_cons, List.foldlM_cons, update_null_acc]
  have hbind : ((Except.ok (fullExtents e) :
        Except String (Option Int × Option Int × Option Int × Option Int)) >>=
      fun init => (t.map fullExtents).foldlM
        (fun acc e => update_overall_underground_extents e acc) init) =
      (t.map fullExtents).foldlM
        (fun acc e => update_overall_underground_extents e acc)
        (fullExtents e) := rfl
  rw [hbind]
  exact foldlM_update_map_full t e

theorem foldl_combine_proj (e : Int × Int × Int × Int)
    (t : List (Int × Int × Int × Int)) :
    (t.foldl combineExtents e).1 = t.foldl (fun acc x => min acc x.1) e.1
    ∧ (t.foldl combineExtents e).2.1
        = t.foldl (fun acc x => min acc x.2.1) e.2.1
    ∧ (t.foldl combineExtents e).2.2.1
        = t.foldl (fun acc x => max acc x.2.2.1) e.2.2.1
    ∧ (t.foldl combineExtents e).2.2.2
        = t.foldl (fun acc x => max acc x.2.2.2) e.2.2.2 := by
  induction t generalizing e with
  | nil => exact ⟨rfl, rfl, rfl, rfl⟩
  | cons x t ih =>
    simp only [List.foldl_cons]
    exact ih (combineExtents e x)

/-- C3: folding non-null per-elevation extents from the all-`None`
accumulator is order-invariant: any permutation gives the same overall
extent, the combining operation is associative and commutative (so any
parenthesisation agrees), and the result is componentwise the minimum of
the lefts, minimum of the tops, maximum of the rights and maximum of the
bottoms. -/
theorem extent_fold_assoc_comm
    (e : Int × Int × Int × Int) (t l2 : List (Int × Int × Int × Int))
    (hperm : (e :: t).Perm l2) :
    foldExtents ((e :: t).map fullExtents) = foldExtents (l2.map fullExtents)
    ∧ foldExtents ((e :: t).map fullExtents)
        = Except.ok (fullExtents (t.foldl combineExtents e))
    ∧ (∀ a b c, combineExtents (combineExtents a b) c
        = combineExtents a (combineExtents b c))
    ∧ (∀ a b, combineExtents a b = combineExtents b a)
    ∧ (t.foldl combineExtents e).1 = t.foldl (fun acc x => min acc x.1) e.1
    ∧ (t.foldl combineExtents e).2.1
        = t.foldl (fun acc x => min acc x.2.1) e.2.1
    ∧ (t.foldl combineExtents e).2.2.1
        = t.foldl (fun acc x => max acc x.2.2.1) e.2.2.1
    ∧ (t.foldl combineExtents e).2.2.2
        = t.foldl (fun acc x => max acc x.2.2.2) e.2.2.2 := by
  obtain ⟨e2, t2, rfl⟩ : ∃ e2 t2, l2 = e2 :: t2 := by
    cases l2 with
    | nil => exact absurd hperm.length_eq (by simp)
    | cons y ys => exact ⟨y, ys, rfl⟩
  refine ⟨?_, foldExtents_map_full e t, combineExtents_assoc,
    combineExtents_comm, (foldl_combine_proj e t).1,
    (foldl_combine_proj e t).2.1, (foldl_combine_proj e t).2.2.1,
    (foldl_combine_proj e t).2.2.2⟩
  rw [foldExtents_map_full e t, foldExtents_map_full e2 t2,
    foldl_combine_perm hperm]

/-- Witness for C3: folding the two extents (1,2,3,4) and (0,5,2,9) in
either order gives the same overall extent. -/
theorem extent_fold_assoc_comm_witness :
    foldExtents ([((1 : Int), (2 : Int), (3 : Int), (4 : Int)),
        (0, 5, 2, 9)].map fullExtents)
      = foldExtents ([((0 : Int), (5 : Int), (2 : Int), (9 : Int)),
        (1, 2, 3, 4)].map fullExtents) :=
  (extent_fold_assoc_comm (1, 2, 3, 4) [(0, 5, 2, 9)]
    [(0, 5, 2, 9), (1, 2, 3, 4)] (List.Perm.swap _ _ _)).1

/-! ### Resampler lemmas -/

theorem npRound_one : npRound 1 = 1 := by
  unfold npRound
  rw [Int.floor_one]
  norm_num

theorem npRound_zero : npRound 0 = 0 := by
  unfold npRound
  rw [Int.floor_zero]
  norm_num

theorem filterMap_always_some {α β : Type} (g : α → β) (l : List α) :
    l.filterMap (fun a => some (g a)) = l.map g := by
  induction l with
  | nil => rfl
  | cons x t ih => simp [List.filterMap_cons, ih]

theorem filterMap_single_hit {β : Type} (n r0 : Nat) (hr : r0 < n) (v : β) :
    (List.range n).filterMap (fun j => if j = r0 then some v else none)
      = [v] := by
  induction n with
  | zero => omega
  | succ m ih =>
    rw [List.range_succ, List.filterMap_append]
    rcases Nat.lt_or_ge r0 m with hlt | hge
    · rw [ih hlt]
      have hm : List.filterMap (fun j => if j = r0 then some v else none) [m]
          = [] := by
        simp [Nat.ne_of_gt hlt]
      rw [hm, List.append_nil]
    · have hmr : r0 = m := by omega
      subst hmr
      have h1 : List.filterMap (fun j => if j = r0 then some v else none)
          (List.range r0) = [] := by
        rw [List.filterMap_eq_nil_iff]
        intro a ha
        rw [List.mem_range] at ha
        simp [Nat.ne_of_lt ha]
      rw [h1]
      simp

theorem flatMap_single_hit {β : Type} (n c0 : Nat) (hc : c0 < n)
    (vs : List β) :
    (List.range n).flatMap (fun i => if i = c0 then vs else []) = vs := by
  induction n with
  | zero => omega
  | succ m ih =>
    rw [List.range_succ, List.flatMap_append]
    rcases Nat.lt_or_ge c0 m with hlt | hge
    · rw [ih hlt]
      simp [Nat.ne_of_gt hlt]
    · have hmc : c0 = m := by omega
      subst hmc
      have h1 : (List.range c0).flatMap (fun i => if i = c0 then vs else [])
          = [] := by
        rw [List.flatMap_eq_nil_iff]
        intro a ha
        rw [List.mem_range] at ha
        simp [Nat.ne_of_lt ha]
      rw [h1]
      simp

/-- C4: resampling a region whose classified mask is all-true (every pixel
1) writes every one of the `(48·embark_size)²` cells with value 1, and
resampling an all-false (every pixel 0) region writes no cell at all. -/
theorem resample_round_trip (e ny nx : Nat) (he : 1 ≤ e) (hny : 1 ≤ ny)
    (hnx : 1 ≤ nx) (pixels : Nat → Nat → ℚ) (f : ℚ → ℚ → ℚ)
    (hf : SplineOn ny nx pixels f) :
    ((∀ i j, i < ny → j < nx → pixels i j = 1) →
       resampleWrites f (48 * e) (48 * e) = fullGridWrites (48 * e) (48 * e))
    ∧ ((∀ i j, i < ny → j < nx → pixels i j = 0) →
       resampleWrites f (48 * e) (48 * e) = []) := by
  constructor
  · intro hpix
    have hconst : ∀ y x : ℚ, f y x = 1 := hf.const_fit 1 hpix
    unfold resampleWrites fullGridWrites
    apply List.flatMap_congr
    intro i _
    have hpoint : ∀ j : Nat,
        (if npRound (f (linspace01 (48 * e) j) (linspace01 (48 * e) i)) = 1
         then some ((i + 1, j + 1),
           npRound (f (linspace01 (48 * e) j) (linspace01 (48 * e) i)))
         else none) = some ((i + 1, j + 1), (1 : ℚ)) := by
      intro j
      rw [hconst, npRound_one, if_pos rfl]
    have hcong := List.filterMap_congr (fun j _ => hpoint j)
      (l := List.range (48 * e))
    rw [hcong, filterMap_always_some]
  · intro hpix
    have hconst : ∀ y x : ℚ, f y x = 0 := hf.const_fit 0 hpix
    unfold resampleWrites
    have hinner : ∀ i ∈ List.range (48 * e),
        (List.range (48 * e)).filterMap (fun j =>
          let pixel := npRound (f (linspace01 (48 * e) j) (linspace01 (48 * e) i))
          if pixel = 1 then some ((i + 1, j + 1), pixel) else none)
          = ([] : List ((Nat × Nat) × ℚ)) := by
      intro i _
      rw [List.filterMap_eq_nil_iff]
      intro j _
      show (if npRound (f (linspace01 (48 * e) j) (linspace01 (48 * e) i)) = 1
        then some ((i + 1, j + 1),
          npRound (f (linspace01 (48 * e) j) (linspace01 (48 * e) i)))
        else none) = none
      rw [hconst, npRound_zero, if_neg (by norm_num)]
    rw [List.flatMap_congr hinner]
    simp

/-- Witness for C4: with a one-pixel source and the constant interpolants
that `RectBivariateSpline` produces for constant data, the 48 × 48 grid is
fully written for the all-1 mask and empty for the all-0 mask. -/
theorem resample_round_trip_witness :
    resampleWrites (fun _ _ => (1 : ℚ)) 48 48 = fullGridWrites 48 48
    ∧ resampleWrites (fun _ _ => (0 : ℚ)) 48 48 = [] := by
  constructor
  · have hsp : SplineOn 1 1 (fun _ _ => (1 : ℚ)) (fun _ _ => (1 : ℚ)) :=
      ⟨fun _ _ _ _ => rfl, fun c hc _ _ => hc 0 0 (by norm_num) (by norm_num)⟩
    exact (resample_round_trip 1 1 1 (le_refl 1) (le_refl 1) (le_refl 1)
      (fun _ _ => 1) (fun _ _ => 1) hsp).1 (fun _ _ _ _ => rfl)
  · have hsp : SplineOn 1 1 (fun _ _ => (0 : ℚ)) (fun _ _ => (0 : ℚ)) :=
      ⟨fun _ _ _ _ => rfl, fun c hc _ _ => hc 0 0 (by norm_num) (by norm_num)⟩
    exact (resample_round_trip 1 1 1 (le_refl 1) (le_refl 1) (le_refl 1)
      (fun _ _ => 0) (fun _ _ => 0) hsp).2 (fun _ _ _ _ => rfl)

theorem linspace01_eq_zero_iff {n i : Nat} (hn : 2 ≤ n) :
    linspace01 n i = 0 ↔ i = 0 := by
  unfold linspace01
  rw [if_neg (by omega)]
  rw [div_eq_zero_iff]
  constructor
  · rintro (h | h)
    · exact_mod_cast h
    · exfalso
      have h2 : (2 : ℚ) ≤ (n : ℚ) := by exact_mod_cast hn
      linarith
  · rintro rfl
    simp

theorem linspace01_eq_one_iff {n i : Nat} (hn : 2 ≤ n) :
    linspace01 n i = 1 ↔ i = n - 1 := by
  unfold linspace01
  rw [if_neg (by omega)]
  have hden : ((n : ℚ) - 1) ≠ 0 := by
    have h2 : (2 : ℚ) ≤ (n : ℚ) := by exact_mod_cast hn
    linarith
  rw [div_eq_one_iff_eq hden]
  have hcast : ((n - 1 : Nat) : ℚ) = (n : ℚ) - 1 := by
    rw [Nat.cast_sub (by omega : 1 ≤ n)]
    norm_num
  constructor
  · intro h
    have h2 : (i : ℚ) = ((n - 1 : Nat) : ℚ) := by rw [h, hcast]
    exact_mod_cast h2
  · rintro rfl
    exact hcast

/-- A mask marked at exactly one source pixel `(r0, c0)` (as data for an
exactly-interpolating spline on a source grid whose size equals the output
grid) produces exactly one write, at column `c0 + 1`, row `r0 + 1`. -/
theorem resampleWrites_delta (n r0 c0 : Nat) (hr : r0 < n) (hc : c0 < n)
    (pixels : Nat → Nat → ℚ) (f : ℚ → ℚ → ℚ)
    (hp : ∀ i j, pixels i j = if i = r0 ∧ j = c0 then 1 else 0)
    (hf : SplineOn n n pixels f) :
    resampleWrites f n n = [((c0 + 1, r0 + 1), 1)] := by
  have hval : ∀ i j, i < n → j < n →
      npRound (f (linspace01 n j) (linspace01 n i))
        = (if j = r0 ∧ i = c0 then (1 : ℚ) else 0) := by
    intro i j hi hj
    rw [hf.interpolates j i hj hi, hp j i]
    by_cases hcond : j = r0 ∧ i = c0
    · rw [if_pos hcond]
      exact npRound_one
    · rw [if_neg hcond]
      exact npRound_zero
  unfold resampleWrites
  have hinner : ∀ i ∈ List.range n,
      (List.range n).filterMap (fun j =>
        let pixel := npRound (f (linspace01 n j) (linspace01 n i))
        if pixel = 1 then some ((i + 1, j + 1), pixel) else none)
        = (if i = c0 then [((c0 + 1, r0 + 1), (1 : ℚ))] else []) := by
    intro i hi
    rw [List.mem_range] at hi
    by_cases hic : i = c0
    · subst hic
      rw [if_pos rfl,
        ← filterMap_single_hit n r0 hr ((i + 1, r0 + 1), (1 : ℚ))]
      apply List.filterMap_congr
      intro j hj
      rw [List.mem_range] at hj
      show (if npRound (f (linspace01 n j) (linspace01 n i)) = 1
        then some ((i + 1, j + 1),
          npRound (f (linspace01 n j) (linspace01 n i)))
        else none) = _
      rw [hval i j hi hj]
      by_cases hjr : j = r0
      · subst hjr
        simp
      · simp [hjr]
    · rw [if_neg hic, List.filterMap_eq_nil_iff]
      intro j hj
      rw [List.mem_range] at hj
      show (if npRound (f (linspace01 n j) (linspace01 n i)) = 1
        then some ((i + 1, j + 1),
          npRound (f (linspace01 n j) (linspace01 n i)))
        else none) = none
      rw [hval i j hi hj]
      simp [hic]
  rw [List.flatMap_congr hinner]
  exact flatMap_single_hit n c0 hc _

/-- C5: with the source grid aligned to the output grid, a mask marked
only at normalized source coordinate (0,0) produces a grid whose only set
cell is the (column 1, row 1) corner, and a mask marked only at (1,1)
produces a grid whose only set cell is the opposite corner
(column `48·e`, row `48·e`) — the loop's row/column axis mapping is
consistent with the source axes. -/
theorem resample_corner_mapping (e : Nat) (he : 1 ≤ e)
    (pixels0 pixels1 : Nat → Nat → ℚ) (f0 f1 : ℚ → ℚ → ℚ)
    (hp0 : ∀ i j, pixels0 i j = if i = 0 ∧ j = 0 then 1 else 0)
    (hp1 : ∀ i j, pixels1 i j =
      if i = 48 * e - 1 ∧ j = 48 * e - 1 then 1 else 0)
    (hf0 : SplineOn (48 * e) (48 * e) pixels0 f0)
    (hf1 : SplineOn (48 * e) (48 * e) pixels1 f1) :
    resampleWrites f0 (48 * e) (48 * e) = [((1, 1), 1)]
    ∧ resampleWrites f1 (48 * e) (48 * e) = [((48 * e, 48 * e), 1)] := by
  have hn : 0 < 48 * e := by omega
  constructor
  · exact resampleWrites_delta (48 * e) 0 0 hn hn pixels0 f0 hp0 hf0
  · have hlt : 48 * e - 1 < 48 * e := by omega
    have hdelta := resampleWrites_delta (48 * e) (48 * e - 1) (48 * e - 1)
      hlt hlt pixels1 f1 hp1 hf1
    have heq : 48 * e - 1 + 1 = 48 * e := by omega
    rw [heq] at hdelta
    exact hdelta

/-- Witness for C5: with embark size 1 (a 48 × 48 grid) and the exact
interpolants of the two delta masks, the only written cells are the two
corners (1,1) and (48,48). -/
theorem resample_corner_mapping_witness :
    resampleWrites (fun y x => if y = 0 ∧ x = 0 then (1 : ℚ) else 0) 48 48
      = [((1, 1), 1)]
    ∧ resampleWrites (fun y x => if y = 1 ∧ x = 1 then (1 : ℚ) else 0) 48 48
      = [((48, 48), 1)] := by
  have h2 : (2 : Nat) ≤ 48 * 1 := by norm_num
  have hf0 : SplineOn (48 * 1) (48 * 1)
      (fun i j => if i = 0 ∧ j = 0 then (1 : ℚ) else 0)
      (fun y x => if y = 0 ∧ x = 0 then (1 : ℚ) else 0) := by
    constructor
    · intro i j hi hj
      show (if linspace01 (48 * 1) i = 0 ∧ linspace01 (48 * 1) j = 0
        then (1 : ℚ) else 0) = _
      simp only [linspace01_eq_zero_iff h2]
    · intro c hc y x
      exfalso
      have ha : (1 : ℚ) = c := by
        have h00 := hc 0 0 (by norm_num) (by norm_num)
        simpa using h00
      have hb : (0 : ℚ) = c := by
        have h01 := hc 0 1 (by norm_num) (by norm_num)
        simpa using h01
      rw [← ha] at hb
      norm_num at hb
  have hf1 : SplineOn (48 * 1) (48 * 1)
      (fun i j => if i = 47 ∧ j = 47 then (1 : ℚ) else 0)
      (fun y x => if y = 1 ∧ x = 1 then (1 : ℚ) else 0) := by
    constructor
    · intro i j hi hj
      show (if linspace01 (48 * 1) i = 1 ∧ linspace01 (48 * 1) j = 1
        then (1 : ℚ) else 0) = _
      simp only [linspace01_eq_one_iff h2]
    · intro c hc y x
      exfalso
      have ha : (1 : ℚ) = c := by
        have h47 := hc 47 47 (by norm_num) (by norm_num)
        simpa using h47
      have hb : (0 : ℚ) = c := by
        have h01 := hc 0 1 (by norm_num) (by norm_num)
        simpa using h01
      rw [← ha] at hb
      norm_num at hb
  have h := resample_corner_mapping 1 (le_refl 1)
    (fun i j => if i = 0 ∧ j = 0 then (1 : ℚ) else 0)
    (fun i j => if i = 47 ∧ j = 47 then (1 : ℚ) else 0)
    (fun y x => if y = 0 ∧ x = 0 then (1 : ℚ) else 0)
    (fun y x => if y = 1 ∧ x = 1 then (1 : ℚ) else 0)
    (fun _ _ => rfl) (fun _ _ => rfl) hf0 hf1
  exact h
